import Mathlib

/-!
Shallow embedding of `src/indexer/watcher.py` (background cache-consistency
watchers of the F95Checker indexer) and proofs about it.

The cache store (redis, configured in `indexer/cache.py`, which is not part of
the sources) is modelled as an association list of hash keys to field/value
hashes.  The upstream HTTP endpoints are modelled by response parameters: a
tick is a pure function of the store and of the responses the upstream would
return during that tick.  A redis pipeline buffers commands client-side and
mutates the store only when `execute()` runs, so a tick that raises before its
final `invalidate_cache.execute()` performs no write; the embedding reflects
this by returning `Except.error` without a new store.
-/

namespace Indexer

/-- A redis hash: association list of field name to value. -/
abbrev RHash := List (String × String)

/-- The cache store: association list of key to hash. -/
abbrev Store := List (String × RHash)

/-- `HGET` on a single hash: first binding of the field, if any. -/
def hgetHash : RHash → String → Option String
  | [], _ => none
  | (f, v) :: rest, field => if f == field then some v else hgetHash rest field

/-- `HGET key field` against the store. -/
def hget : Store → String → String → Option String
  | [], _, _ => none
  | (k, h) :: rest, key, field =>
    if k == key then hgetHash h field else hget rest key field

/-- `HDEL` on a single hash: remove the given fields, returning the new hash
and the number of requested fields that existed (the integer redis reply). -/
def hdelHash (h : RHash) (fields : List String) : RHash × Nat :=
  (h.filter (fun p => !fields.contains p.1),
   (fields.filter (fun f => (hgetHash h f).isSome)).length)

/-- `HDEL key fields` against the store: edits the (first) entry for `key`,
returns the number of removed fields. -/
def hdel : Store → String → List String → Store × Nat
  | [], _, _ => ([], 0)
  | (k, h) :: rest, key, fields =>
    if k == key then
      let p := hdelHash h fields
      ((k, p.1) :: rest, p.2)
    else
      let p := hdel rest key fields
      ((k, h) :: p.1, p.2)

/-- Modelled from the spec: `cache.NAME_FORMAT` (from `indexer/cache.py`,
absent from the sources) — "a fixed template producing a per-thread hash key
from a thread id"; the sweep scans `thread:*` and recovers the id as
`name.split(":")[1]`, so the template is `thread:` followed by the id. -/
def NAME_FORMAT (id : String) : String := "thread:" ++ id

/-- Modelled from the spec: `cache.LAST_CACHED` (from `indexer/cache.py`,
absent from the sources) — the name of the last-cached timestamp field,
"distinct from `version`". -/
def LAST_CACHED : String := "last_cached"

/-- `WATCH_UPDATES_INTERVAL = dt.timedelta(minutes=5).total_seconds()`,
in seconds. -/
def WATCH_UPDATES_INTERVAL : Nat := 300

/-- `WATCH_UPDATES_CATEGORIES = ("games", "comics", "animations")`. -/
def WATCH_UPDATES_CATEGORIES : List String := ["games", "comics", "animations"]

/-- `WATCH_VERSIONS_INTERVAL = dt.timedelta(hours=12).total_seconds()`,
in seconds. -/
def WATCH_VERSIONS_INTERVAL : Nat := 43200

/-- `WATCH_VERSIONS_CHUNK_SIZE = 1000`. -/
def WATCH_VERSIONS_CHUNK_SIZE : Nat := 1000

/-- `chunks(lst, n)`: `for i in range(0, len(lst), n): yield lst[i : i + n]`.
(Python raises for `n = 0`; the model returns no chunks there — the only call
site uses `n = 1000`.) -/
def chunks : List α → Nat → List (List α)
  | [], _ => []
  | _ :: _, 0 => []
  | x :: xs, n + 1 => ((x :: xs).take (n + 1)) :: chunks ((x :: xs).drop (n + 1)) (n + 1)
termination_by l _ => l.length
decreasing_by
  simp only [List.drop_succ_cons, List.length_drop, List.length_cons]
  omega

/-- One item of the latest-updates listing: `update["thread_id"]` (already
formatted to a string) and `update["version"]`. -/
structure UpdateItem where
  thread_id : String
  version : String
deriving DecidableEq, Repr

/-- Outcome of fetching and decoding one category's page-1 listing.
`netError` is a transport exception from `session.get`/`read`; `indexError`
is `f95zone.check_error` returning a structured error flag; `invalidJSON` is
`json.loads` failing (a JSON body of unexpected shape raises a `KeyError`
with the same tick-aborting effect); `parsed status data` is a decoded
envelope with its `status` field and `msg.data` list. -/
inductive ListingResponse where
  | netError
  | indexError (flag : String)
  | invalidJSON
  | parsed (status : String) (data : List UpdateItem)
deriving DecidableEq, Repr

/-- The per-item body of the `zip(names, versions, cached_versions)` loop in
`watch_updates`: skip when no cached version, skip when the upstream version
is falsy or `"Unknown"`, queue `hdel(name, LAST_CACHED, "version")` on
mismatch. Returns the queued key, if any. -/
def updateDecision (store : Store) (u : UpdateItem) : Option String :=
  let name := NAME_FORMAT u.thread_id
  match hget store name "version" with
  | none => none
  | some cached =>
    if u.version == "" || u.version == "Unknown" then none
    else if u.version != cached then some name
    else none

/-- One category of a `watch_updates` tick: error classification, JSON
decoding, status check, then the per-item loop; returns the keys queued into
`invalidate_cache` by this category. -/
def processListing (store : Store) (resp : ListingResponse) :
    Except String (List String) :=
  match resp with
  | .netError => .error "network error"
  | .indexError flag => .error flag
  | .invalidJSON => .error "Latest updates returned invalid JSON"
  | .parsed status data =>
    if status != "ok" then .error "Latest updates returned an error"
    else .ok (data.filterMap (updateDecision store))

/-- The category loop of a `watch_updates` tick: the queued keys accumulate
across categories; the first exception aborts the whole tick. -/
def queueUpdates (store : Store) (resps : List ListingResponse) :
    Except String (List String) :=
  match resps with
  | [] => .ok []
  | r :: rs =>
    match processListing store r with
    | .error e => .error e
    | .ok q =>
      match queueUpdates store rs with
      | .error e => .error e
      | .ok qs => .ok (q ++ qs)

/-- Modelled from the spec: the pipeline `execute()` reply for one queued
`hdel`, decoded (the redis client lives in `indexer/cache.py`, absent from
the sources; the spec specifies only that the pipeline "returns one result
per queued operation").  The reply is the decimal string of the number of
removed fields, which the watcher compares against `"0"`. -/
def decodeReply (c : Nat) : String := toString c

/-- `invalidate_cache.execute()`: run the queued
`hdel(name, LAST_CACHED, "version")` commands in order against the store,
collecting the per-command removed-field counts. -/
def execInvalidate (s : Store) (names : List String) : Store × List Nat :=
  match names with
  | [] => (s, [])
  | name :: rest =>
    let p := hdel s name [LAST_CACHED, "version"]
    let q := execInvalidate p.1 rest
    (q.1, p.2 :: q.2)

/-- `invalidated = sum(ret != "0" for ret in result)`. -/
def countInvalidated (replies : List String) : Nat :=
  replies.countP (fun r => r != "0")

/-- The tail of both ticks: `if len(invalidate_cache): result = await
invalidate_cache.execute(); invalidated = sum(ret != "0" for ret in result)`.
Returns the new store and the logged invalidated count (`none` when the
pipeline was empty and nothing was executed or logged). -/
def finishTick (store : Store) (names : List String) : Store × Option Nat :=
  if names.length != 0 then
    let p := execInvalidate store names
    (p.1, some (countInvalidated (p.2.map decodeReply)))
  else
    (store, none)

/-- One tick of `watch_updates`, parameterised by the per-category listing
responses: on success the new store and the logged count, on exception an
error with the store untouched (the `invalidate_cache` pipeline is only
executed after every category succeeded). -/
def updatesTick (store : Store) (resps : List ListingResponse) :
    Except String (Store × Option Nat) :=
  match queueUpdates store resps with
  | .error e => .error e
  | .ok names => .ok (finishTick store names)

/-- One iteration of the `watch_updates` loop body including its `except`
clause: on exception the error is logged and the store is unchanged. -/
def updatesStep (store : Store) (resps : List ListingResponse) :
    Store × Option String :=
  match updatesTick store resps with
  | .ok p => (p.1, none)
  | .error e => (store, some e)

/-- The `msg` value of a decoded bulk version-check envelope: either a plain
string (the error case) or a mapping from thread-id string to version
string. -/
inductive VerMsg where
  | str (s : String)
  | map (m : List (String × String))
deriving DecidableEq, Repr

/-- `versions["msg"] == "Thread not found"`: a Python `dict` never equals a
`str`, so only the string form can match. -/
def msgIsThreadNotFound : VerMsg → Bool
  | .str s => s == "Thread not found"
  | .map _ => false

/-- `versions.get(id)` on the mapping form: first binding, if any. -/
def versionsGet (m : List (String × String)) (id : String) : Option String :=
  match m with
  | [] => none
  | (k, v) :: rest => if k == id then some v else versionsGet rest id

/-- Outcome of one bulk version-check request, decoded like
`ListingResponse`. -/
inductive VerchkResponse where
  | netError
  | indexError (flag : String)
  | invalidJSON
  | parsed (status : String) (msg : VerMsg)
deriving DecidableEq, Repr

/-- `id = name.split(":")[1]` (scanned names always match `thread:*`, so the
second component exists; the model defaults to `""` otherwise). -/
def threadId (name : String) : String := (name.splitOn ":").getD 1 ""

/-- The ids of one batch, as sent in the comma-separated bulk-check URL. -/
def chunkIds (chunk : List String) : List String := chunk.map threadId

/-- The per-key body of the `zip(names_chunk, ids, cached_versions)` loop in
`watch_versions`: skip when no cached version, skip when upstream has no
entry or reports a falsy or `"Unknown"` version, queue
`hdel(name, LAST_CACHED, "version")` on mismatch. -/
def versionDecision (store : Store) (m : List (String × String))
    (name : String) : Option String :=
  match hget store name "version" with
  | none => none
  | some cached =>
    match versionsGet m (threadId name) with
    | none => none
    | some version =>
      if version == "" || version == "Unknown" then none
      else if version != cached then some name
      else none

/-- One batch of a `watch_versions` tick: error classification, JSON
decoding, the `Thread not found` special case (`continue`, queueing
nothing), the status check, then the per-key loop.  A `status == "ok"`
envelope whose `msg` is not a mapping makes `versions.get` raise, aborting
the tick. -/
def processChunk (store : Store) (chunk : List String) (resp : VerchkResponse) :
    Except String (List String) :=
  match resp with
  | .netError => .error "network error"
  | .indexError flag => .error flag
  | .invalidJSON => .error "Versions API returned invalid JSON"
  | .parsed status msg =>
    if status == "error" && msgIsThreadNotFound msg then .ok []
    else if status != "ok" then .error "Versions API returned an error"
    else
      match msg with
      | .str _ => .error "versions msg has no get attribute"
      | .map m => .ok (chunk.filterMap (versionDecision store m))

/-- The batch loop of a `watch_versions` tick, parameterised by the upstream
bulk-check response for each id list.  Also records the bulk-check calls
issued (one per batch, in order) before the tick aborted or finished. -/
def runChunks (store : Store) (verchk : List String → VerchkResponse) :
    List (List String) → List (List String) × Except String (List String)
  | [] => ([], .ok [])
  | c :: cs =>
    let ids := chunkIds c
    match processChunk store c (verchk ids) with
    | .error e => ([ids], .error e)
    | .ok q =>
      let rest := runChunks store verchk cs
      (ids :: rest.1,
       match rest.2 with
       | .error e => .error e
       | .ok qs => .ok (q ++ qs))

/-- `cache.redis.scan_iter("thread:*", 10000, "hash")`: every store key
matching the glob (all store values are hashes). -/
def scanThreads (store : Store) : List String :=
  (store.map (fun p => p.1)).filter (fun k => k.startsWith "thread:")

/-- The batches of one `watch_versions` tick. -/
def versionsBatches (store : Store) : List (List String) :=
  chunks (scanThreads store) WATCH_VERSIONS_CHUNK_SIZE

/-- The keys queued by the batch loop of one `watch_versions` tick. -/
def queueVersions (store : Store) (verchk : List String → VerchkResponse) :
    Except String (List String) :=
  (runChunks store verchk (versionsBatches store)).2

/-- The bulk-check calls issued during one `watch_versions` tick. -/
def versionsCallsMade (store : Store) (verchk : List String → VerchkResponse) :
    List (List String) :=
  (runChunks store verchk (versionsBatches store)).1

/-- One tick of `watch_versions`: scan, batch loop, then the shared
execute-and-log tail; on exception the store is untouched. -/
def versionsTick (store : Store) (verchk : List String → VerchkResponse) :
    Except String (Store × Option Nat) :=
  match queueVersions store verchk with
  | .error e => .error e
  | .ok names => .ok (finishTick store names)

/-- One iteration of the `watch_versions` loop body including its `except`
clause. -/
def versionsStep (store : Store) (verchk : List String → VerchkResponse) :
    Store × Option String :=
  match versionsTick store verchk with
  | .ok p => (p.1, none)
  | .error e => (store, some e)

/-! Lifecycle and loop timing. -/

/-- The watcher loops this module could in principle run; the spec also
describes a catch-up cursor watcher. -/
inductive Watcher where
  | updates
  | versions
  | catchup
deriving DecidableEq, Repr

/-- The tasks created on entering `lifespan()`:
`asyncio.create_task(watch_updates())` and
`asyncio.create_task(watch_versions())`. -/
def lifespanStartedTasks : List Watcher := [.updates, .versions]

/-- The tasks cancelled in the `finally` clause of `lifespan()`:
`updates_task.cancel()` and `versions_task.cancel()`. -/
def lifespanCancelledTasks : List Watcher := [.updates, .versions]

/-- A phase of a loop iteration: the tick body (modelled as instantaneous) or
an `asyncio.sleep` of the given number of seconds. -/
inductive Phase where
  | work
  | idle (d : Nat)
deriving DecidableEq, Repr

/-- The `while True` body of `watch_updates`: the tick (with its `except`
clause), then `await asyncio.sleep(WATCH_UPDATES_INTERVAL)`. -/
def updatesBody : List Phase := [.work, .idle WATCH_UPDATES_INTERVAL]

/-- The `while True` body of `watch_versions`:
`await asyncio.sleep(WATCH_VERSIONS_INTERVAL)` first, then the tick. -/
def versionsBody : List Phase := [.idle WATCH_VERSIONS_INTERVAL, .work]

/-- The loop body run by each started watcher task; the catch-up cursor
watcher has no loop in this module. -/
def watcherBody : Watcher → Option (List Phase)
  | .updates => some updatesBody
  | .versions => some versionsBody
  | .catchup => none

/-- Duration of a phase, in seconds. -/
def phaseDuration : Phase → Nat
  | .work => 0
  | .idle d => d

/-- Duration of one loop iteration. -/
def bodyDuration (b : List Phase) : Nat := (b.map phaseDuration).sum

/-- Seconds slept before the first tick of an iteration. -/
def sleepBeforeWork : List Phase → Nat
  | [] => 0
  | .work :: _ => 0
  | .idle d :: rest => d + sleepBeforeWork rest

/-- Time (seconds after the task starts) at which iteration `k`'s tick
begins. -/
def workStart (b : List Phase) (k : Nat) : Nat :=
  k * bodyDuration b + sleepBeforeWork b

/-! Derived predicates and concrete inputs used in the statements below. -/

/-- Whether a listing response makes `watch_updates` raise (aborting the
tick): everything except a decoded envelope with `status == "ok"`. -/
def listingAborts : ListingResponse → Bool
  | .parsed status _ => status != "ok"
  | _ => true

/-- Whether a bulk-check response makes `watch_versions` raise (aborting the
tick): everything except a `status == "ok"` envelope with a mapping `msg`
and the recoverable `Thread not found` error. -/
def verchkAborts : VerchkResponse → Bool
  | .parsed status msg =>
    if status == "error" && msgIsThreadNotFound msg then false
    else if status != "ok" then true
    else
      match msg with
      | .str _ => true
      | .map _ => false
  | _ => true

/-- How many items of one listing response would queue `name`. -/
def respCount (store : Store) (name : String) : ListingResponse → Nat
  | .parsed _ data => data.countP (fun u => updateDecision store u == some name)
  | _ => 0

/-- The paired-field consistency invariant: every key has its `version` field
exactly when it has its last-cached field. -/
def pairedFields (s : Store) : Prop :=
  ∀ key, (hget s key "version").isSome = (hget s key LAST_CACHED).isSome

/-- A one-entry store: thread 42 cached at version `1.0`. -/
def exampleStore : Store :=
  [("thread:42", [("version", "1.0"), ("last_cached", "1700000000")])]

/-- A listing page reporting thread 42 at version `2.0`. -/
def exampleListing : ListingResponse :=
  .parsed "ok" [{ thread_id := "42", version := "2.0" }]

/-- The recoverable bulk-check error body. -/
def notFoundResponse : VerchkResponse :=
  .parsed "error" (.str "Thread not found")

/-! Lemmas about the store operations. -/

theorem hgetHash_eq_none_iff (h : RHash) (f : String) :
    hgetHash h f = none ↔ ∀ p ∈ h, p.1 ≠ f := by
  induction h with
  | nil => simp [hgetHash]
  | cons p rest ih =>
    by_cases hp : p.1 = f
    · simp [hgetHash, hp]
    · simp only [hgetHash, beq_iff_eq, if_neg hp, ih, List.mem_cons]
      constructor
      · intro hall q hq
        rcases hq with hq | hq
        · rw [hq]; exact hp
        · exact hall q hq
      · intro hall q hq
        exact hall q (Or.inr hq)

theorem hgetHash_filter_mem (h : RHash) (fields : List String) (f : String)
    (hf : f ∈ fields) :
    hgetHash (h.filter (fun p => !fields.contains p.1)) f = none := by
  rw [hgetHash_eq_none_iff]
  intro p hp hpf
  simp only [List.mem_filter, Bool.not_eq_true'] at hp
  have hc : fields.contains p.1 = true := List.elem_iff.mpr (by rwa [hpf])
  rw [hp.2] at hc
  exact Bool.false_ne_true hc

theorem hgetHash_filter_not_mem (h : RHash) (fields : List String) (f : String)
    (hf : f ∉ fields) :
    hgetHash (h.filter (fun p => !fields.contains p.1)) f = hgetHash h f := by
  induction h with
  | nil => simp [hgetHash]
  | cons p rest ih =>
    obtain ⟨a, b⟩ := p
    rw [List.filter_cons]
    by_cases hp : fields.contains a = true
    · have hpf : a ≠ f := fun he => hf (he ▸ List.elem_iff.mp hp)
      rw [hp]
      simp only [Bool.not_true]
      rw [if_neg (by simp)]
      rw [ih]
      simp [hgetHash, hpf]
    · rw [Bool.eq_false_iff.mpr hp]
      simp only [Bool.not_false]
      rw [if_pos trivial]
      by_cases haf : a = f
      · simp [hgetHash, haf]
      · simp only [hgetHash]
        rw [ih]

theorem hget_hdel_mem (s : Store) (key : String) (fields : List String)
    (f : String) (hf : f ∈ fields) :
    hget (hdel s key fields).1 key f = none := by
  induction s with
  | nil => rfl
  | cons p rest ih =>
    obtain ⟨k, h⟩ := p
    by_cases hk : k = key
    · simp only [hdel, hk, beq_self_eq_true, if_pos rfl, hget, hdelHash]
      exact hgetHash_filter_mem h fields f hf
    · simp only [hdel, beq_iff_eq, if_neg hk, hget]
      exact ih

theorem hget_hdel_other (s : Store) (key : String) (fields : List String)
    (key' f : String) (h : key' ≠ key ∨ f ∉ fields) :
    hget (hdel s key fields).1 key' f = hget s key' f := by
  induction s with
  | nil => rfl
  | cons p rest ih =>
    obtain ⟨k, hh⟩ := p
    by_cases hk : k = key
    · subst hk
      simp only [hdel, beq_self_eq_true, if_pos rfl, hget, hdelHash]
      by_cases hk' : k = key'
      · rcases h with h | h
        · exact absurd hk'.symm h
        · simp only [hk', beq_self_eq_true, if_pos rfl]
          exact hgetHash_filter_not_mem hh fields f h
      · simp only [beq_iff_eq, if_neg hk']
    · by_cases hk' : k = key'
      · subst hk'
        simp [hdel, hget, hk]
      · simp [hdel, hget, hk, hk', ih]

theorem hget_hdel_none (s : Store) (k : String) (fields : List String)
    (key f : String) (h : hget s key f = none) :
    hget (hdel s k fields).1 key f = none := by
  by_cases hk : key = k
  · subst hk
    by_cases hf : f ∈ fields
    · exact hget_hdel_mem s key fields f hf
    · rw [hget_hdel_other s key fields key f (Or.inr hf)]; exact h
  · rw [hget_hdel_other s k fields key f (Or.inl hk)]; exact h

theorem hdel_count (s : Store) (key : String) (fields : List String) :
    (hdel s key fields).2 =
      (fields.filter (fun f => (hget s key f).isSome)).length := by
  induction s with
  | nil =>
    simp [hdel, hget, List.filter]
  | cons p rest ih =>
    obtain ⟨k, h⟩ := p
    by_cases hk : k = key
    · have hstep : hdel ((k, h) :: rest) key fields =
          ((k, (hdelHash h fields).1) :: rest, (hdelHash h fields).2) := by
        simp [hdel, hk]
      rw [hstep]
      simp only [hdelHash]
      congr 1
      exact List.filter_congr (fun f _ => by simp [hget, hk])
    · simp only [hdel, beq_iff_eq, if_neg hk, hget]
      exact ih

theorem hdel_absent (s : Store) (key : String) (fields : List String)
    (h : ∀ f ∈ fields, hget s key f = none) :
    hdel s key fields = (s, 0) := by
  induction s with
  | nil => rfl
  | cons p rest ih =>
    obtain ⟨k, hh⟩ := p
    by_cases hk : k = key
    · subst hk
      have hnone : ∀ f ∈ fields, hgetHash hh f = none := by
        intro f hf
        have := h f hf
        simpa [hget] using this
      simp only [hdel, beq_self_eq_true, if_pos rfl, hdelHash]
      have hfilter : hh.filter (fun p => !fields.contains p.1) = hh := by
        rw [List.filter_eq_self]
        intro p hp
        by_cases hc : fields.contains p.1 = true
        · have hm : p.1 ∈ fields := List.elem_iff.mp hc
          exact absurd rfl ((hgetHash_eq_none_iff hh p.1).mp (hnone p.1 hm) p hp)
        · simp only [Bool.not_eq_true']
          exact Bool.eq_false_iff.mpr hc
      have hcount : fields.filter (fun f => (hgetHash hh f).isSome) = [] := by
        rw [List.filter_eq_nil_iff]
        intro f hf
        simp [hnone f hf]
      rw [hfilter, hcount]
      rfl
    · have hrest : ∀ f ∈ fields, hget rest key f = none := by
        intro f hf
        have := h f hf
        simpa [hget, hk] using this
      simp [hdel, hk, ih hrest]

/-! Lemmas about the batched invalidation write. -/

theorem execInvalidate_frame (names : List String) (s : Store) (key f : String)
    (h : key ∉ names) :
    hget (execInvalidate s names).1 key f = hget s key f := by
  induction names generalizing s with
  | nil => rfl
  | cons n rest ih =>
    simp only [execInvalidate]
    rw [ih _ (fun hm => h (List.mem_cons_of_mem n hm))]
    exact hget_hdel_other s n [LAST_CACHED, "version"] key f
      (Or.inl (fun he => h (he ▸ List.mem_cons_self n rest)))

theorem execInvalidate_none (names : List String) (s : Store) (key f : String)
    (h : hget s key f = none) :
    hget (execInvalidate s names).1 key f = none := by
  induction names generalizing s with
  | nil => exact h
  | cons n rest ih =>
    simp only [execInvalidate]
    exact ih _ (hget_hdel_none s n [LAST_CACHED, "version"] key f h)

theorem execInvalidate_deleted (names : List String) (s : Store)
    (name f : String) (hname : name ∈ names)
    (hf : f ∈ [LAST_CACHED, "version"]) :
    hget (execInvalidate s names).1 name f = none := by
  induction names generalizing s with
  | nil => cases hname
  | cons n rest ih =>
    simp only [execInvalidate]
    rcases List.mem_cons.mp hname with he | hm
    · subst he
      exact execInvalidate_none rest _ name f
        (hget_hdel_mem s name [LAST_CACHED, "version"] f hf)
    · exact ih _ hm

theorem execInvalidate_counts_le (names : List String) (s : Store) :
    ∀ c ∈ (execInvalidate s names).2, c ≤ 2 := by
  induction names generalizing s with
  | nil => intro c hc; cases hc
  | cons n rest ih =>
    intro c hc
    simp only [execInvalidate, List.mem_cons] at hc
    rcases hc with hc | hc
    · subst hc
      rw [hdel_count]
      calc (List.filter (fun f => (hget s n f).isSome) [LAST_CACHED, "version"]).length
          ≤ ([LAST_CACHED, "version"] : List String).length := List.length_filter_le ..
        _ = 2 := rfl
    · exact ih _ c hc

theorem decodeReply_ne_zero (c : Nat) (hc : c ≤ 2) :
    (decodeReply c != "0") = (c != 0) := by
  interval_cases c <;> decide

theorem countInvalidated_exec (s : Store) (names : List String) :
    countInvalidated (((execInvalidate s names).2).map decodeReply)
      = ((execInvalidate s names).2).countP (fun c => c != 0) := by
  unfold countInvalidated
  rw [List.countP_map]
  refine List.countP_congr (fun c hc => ?_)
  have := decodeReply_ne_zero c (execInvalidate_counts_le names s c hc)
  simp only [Function.comp_apply, this]

theorem finishTick_store (store : Store) (names : List String) :
    (finishTick store names).1 = (execInvalidate store names).1 := by
  unfold finishTick
  split
  · rfl
  · next hn =>
    have : names = [] := by
      cases names with
      | nil => rfl
      | cons a l => simp at hn
    rw [this]
    rfl

/-! Lemmas about `chunks`. -/

theorem chunks_flatten (l : List α) (n : Nat) (hn : 0 < n) :
    (chunks l n).flatten = l := by
  induction l, n using chunks.induct with
  | case1 n => simp [chunks]
  | case2 x xs => omega
  | case3 x xs n ih =>
    simp only [chunks, List.flatten_cons]
    rw [ih hn]
    exact List.take_append_drop ..

theorem chunks_length (l : List α) (n : Nat) (hn : 0 < n) :
    (chunks l n).length = (l.length + n - 1) / n := by
  induction l, n using chunks.induct with
  | case1 n =>
    simp only [chunks, List.length_nil, Nat.zero_add]
    rw [Nat.div_eq_of_lt (by omega)]
  | case2 x xs => omega
  | case3 x xs n ih =>
    simp only [chunks, List.length_cons]
    rw [ih hn]
    simp only [List.length_drop, List.length_cons]
    have key : (xs.length + 1 - (n + 1) + (n + 1) - 1) / (n + 1)
        = (xs.length + 1 - 1) / (n + 1) := by
      rcases Nat.lt_or_ge (xs.length + 1) (n + 1) with h | h
      · rw [Nat.div_eq_of_lt (by omega), Nat.div_eq_of_lt (by omega)]
      · congr 1
        omega
    rw [key]
    have harg : xs.length + 1 + (n + 1) - 1 = (xs.length + 1 - 1) + (n + 1) := by
      omega
    rw [harg, Nat.add_div_right _ (Nat.succ_pos n)]

theorem chunks_sizes (l : List α) (n : Nat) :
    ∀ c ∈ chunks l n, c ≠ [] ∧ c.length ≤ n := by
  induction l, n using chunks.induct with
  | case1 n => intro c hc; simp [chunks] at hc
  | case2 x xs => intro c hc; simp [chunks] at hc
  | case3 x xs n ih =>
    intro c hc
    simp only [chunks, List.mem_cons] at hc
    rcases hc with hc | hc
    · subst hc
      constructor
      · simp
      · simp
    · exact ih c hc

/-! Lemmas about the tick bodies. -/

theorem processListing_error_of_aborts (store : Store) (r : ListingResponse)
    (h : listingAborts r = true) :
    ∃ e, processListing store r = .error e := by
  cases r with
  | netError => exact ⟨_, rfl⟩
  | indexError flag => exact ⟨_, rfl⟩
  | invalidJSON => exact ⟨_, rfl⟩
  | parsed status data =>
    simp only [listingAborts] at h
    simp only [processListing, h]
    exact ⟨_, rfl⟩

theorem listingAborts_of_ok (store : Store) (r : ListingResponse)
    (q : List String) (h : processListing store r = .ok q) :
    listingAborts r = false := by
  cases r with
  | netError => cases h
  | indexError flag => cases h
  | invalidJSON => cases h
  | parsed status data =>
    simp only [processListing] at h
    simp only [listingAborts]
    by_cases hs : (status != "ok") = true
    · rw [hs] at h; cases h
    · simpa using hs

theorem queueUpdates_error (store : Store) (resps : List ListingResponse)
    (h : ∃ r ∈ resps, listingAborts r = true) :
    ∃ e, queueUpdates store resps = .error e := by
  induction resps with
  | nil => obtain ⟨r, hr, _⟩ := h; cases hr
  | cons r0 rest ih =>
    simp only [queueUpdates]
    cases hp : processListing store r0 with
    | error e => exact ⟨e, rfl⟩
    | ok q =>
      obtain ⟨r, hr, habort⟩ := h
      rcases List.mem_cons.mp hr with he | hm
      · subst he
        rw [listingAborts_of_ok store r q hp] at habort
        cases habort
      · obtain ⟨e, he⟩ := ih ⟨r, hm, habort⟩
        rw [he]
        exact ⟨e, rfl⟩

theorem processChunk_error_of_aborts (store : Store) (chunk : List String)
    (r : VerchkResponse) (h : verchkAborts r = true) :
    ∃ e, processChunk store chunk r = .error e := by
  cases r with
  | netError => exact ⟨_, rfl⟩
  | indexError flag => exact ⟨_, rfl⟩
  | invalidJSON => exact ⟨_, rfl⟩
  | parsed status msg =>
    simp only [verchkAborts] at h
    simp only [processChunk]
    by_cases hnf : (status == "error" && msgIsThreadNotFound msg) = true
    · rw [if_pos hnf] at h ⊢
      cases h
    · rw [if_neg hnf] at h ⊢
      by_cases hs : (status != "ok") = true
      · rw [if_pos hs]
        exact ⟨_, rfl⟩
      · rw [if_neg hs] at h ⊢
        cases msg with
        | str s => exact ⟨_, rfl⟩
        | map m => cases h

theorem verchkAborts_of_ok (store : Store) (chunk : List String)
    (r : VerchkResponse) (q : List String)
    (h : processChunk store chunk r = .ok q) :
    verchkAborts r = false := by
  cases hr : verchkAborts r with
  | false => rfl
  | true =>
    obtain ⟨e, he⟩ := processChunk_error_of_aborts store chunk r hr
    rw [he] at h
    cases h

theorem runChunks_error (store : Store)
    (verchk : List String → VerchkResponse) (cs : List (List String))
    (h : ∃ c ∈ cs, verchkAborts (verchk (chunkIds c)) = true) :
    ∃ e, (runChunks store verchk cs).2 = .error e := by
  induction cs with
  | nil => obtain ⟨c, hc, _⟩ := h; cases hc
  | cons c0 rest ih =>
    simp only [runChunks]
    cases hp : processChunk store c0 (verchk (chunkIds c0)) with
    | error e => exact ⟨e, rfl⟩
    | ok q =>
      obtain ⟨c, hc, habort⟩ := h
      rcases List.mem_cons.mp hc with he | hm
      · subst he
        rw [verchkAborts_of_ok store c _ q hp] at habort
        cases habort
      · obtain ⟨e, he⟩ := ih ⟨c, hm, habort⟩
        rw [he]
        exact ⟨e, rfl⟩

theorem runChunks_calls (store : Store)
    (verchk : List String → VerchkResponse) (cs : List (List String))
    (q : List String) (h : (runChunks store verchk cs).2 = .ok q) :
    (runChunks store verchk cs).1 = cs.map chunkIds := by
  induction cs generalizing q with
  | nil => rfl
  | cons c0 rest ih =>
    simp only [runChunks] at h ⊢
    cases hp : processChunk store c0 (verchk (chunkIds c0)) with
    | error e => rw [hp] at h; cases h
    | ok q0 =>
      rw [hp] at h
      simp only [List.map_cons]
      cases hr : (runChunks store verchk rest).2 with
      | error e => simp only [hr] at h; cases h
      | ok qs => rw [ih qs hr]

theorem count_filterMap_updateDecision (store : Store)
    (data : List UpdateItem) (name : String) :
    (data.filterMap (updateDecision store)).count name
      = data.countP (fun u => updateDecision store u == some name) := by
  induction data with
  | nil => rfl
  | cons u rest ih =>
    rw [List.filterMap_cons, List.countP_cons]
    cases hd : updateDecision store u with
    | none =>
      simp only [hd]
      rw [ih]
      simp
    | some v =>
      simp only [hd]
      rw [List.count_cons, ih]
      by_cases hv : v = name
      · simp [hv]
      · simp [hv, Ne.symm hv]

theorem finishTick_some (store : Store) (q : List String) (s' : Store)
    (cnt : Nat) (h : finishTick store q = (s', some cnt)) :
    s' = (execInvalidate store q).1 ∧
    cnt = ((execInvalidate store q).2).countP (fun c => c != 0) := by
  unfold finishTick at h
  split at h
  · have h1 : (execInvalidate store q).1 = s' := congrArg Prod.fst h
    have h2 : some (countInvalidated ((execInvalidate store q).2.map decodeReply))
        = some cnt := congrArg Prod.snd h
    refine ⟨h1.symm, ?_⟩
    rw [← Option.some.inj h2, countInvalidated_exec]
  · simp at h

theorem tick_exec_effect (store : Store) (q : List String) (s' : Store)
    (log : Option Nat) (h : finishTick store q = (s', log)) :
    (∀ name ∈ q, hget s' name "version" = none ∧ hget s' name LAST_CACHED = none) ∧
    (∀ key f, key ∉ q → hget s' key f = hget store key f) := by
  have hs' : s' = (execInvalidate store q).1 := by
    rw [← finishTick_store, h]
  constructor
  · intro name hn
    rw [hs']
    exact ⟨execInvalidate_deleted q store name "version" hn (by simp),
           execInvalidate_deleted q store name LAST_CACHED hn (by simp)⟩
  · intro key f hk
    rw [hs']
    exact execInvalidate_frame q store key f hk

theorem updatesStep_is_exec (store : Store) (resps : List ListingResponse) :
    ∃ names, (updatesStep store resps).1 = (execInvalidate store names).1 := by
  cases hq : queueUpdates store resps with
  | error e =>
    exact ⟨[], by simp [updatesStep, updatesTick, hq, execInvalidate]⟩
  | ok q =>
    exact ⟨q, by simp [updatesStep, updatesTick, hq, finishTick_store]⟩

theorem versionsStep_is_exec (store : Store)
    (verchk : List String → VerchkResponse) :
    ∃ names, (versionsStep store verchk).1 = (execInvalidate store names).1 := by
  cases hq : queueVersions store verchk with
  | error e =>
    exact ⟨[], by simp [versionsStep, versionsTick, hq, execInvalidate]⟩
  | ok q =>
    exact ⟨q, by simp [versionsStep, versionsTick, hq, finishTick_store]⟩

theorem pairedFields_exec (store : Store) (names : List String)
    (h : pairedFields store) : pairedFields (execInvalidate store names).1 := by
  intro key
  by_cases hk : key ∈ names
  · rw [execInvalidate_deleted names store key "version" hk (by simp),
        execInvalidate_deleted names store key LAST_CACHED hk (by simp)]
  · rw [execInvalidate_frame names store key "version" hk,
        execInvalidate_frame names store key LAST_CACHED hk]
    exact h key

/-! The claims. -/

/-- C9: the `watch_updates` loop polls immediately when its task starts and
sleeps its 5-minute interval only after each tick, while the `watch_versions`
loop sleeps its full 12-hour interval before doing anything, so iteration
`k`'s sweep starts at `(k+1) * 43200` seconds and no sweep happens during the
first 12 hours after startup. -/
theorem first_tick_timing :
    workStart updatesBody 0 = 0 ∧
    sleepBeforeWork updatesBody = 0 ∧
    sleepBeforeWork versionsBody = WATCH_VERSIONS_INTERVAL ∧
    (∀ k, workStart versionsBody k = (k + 1) * WATCH_VERSIONS_INTERVAL) ∧
    (∀ k, WATCH_VERSIONS_INTERVAL ≤ workStart versionsBody k) := by
  have hws : ∀ k, workStart versionsBody k = (k + 1) * WATCH_VERSIONS_INTERVAL := by
    intro k
    simp only [workStart, versionsBody, bodyDuration, sleepBeforeWork,
      phaseDuration, List.map_cons, List.map_nil, List.sum_cons, List.sum_nil,
      WATCH_VERSIONS_INTERVAL]
    omega
  refine ⟨rfl, rfl, rfl, hws, fun k => ?_⟩
  rw [hws k]
  have : 1 * WATCH_VERSIONS_INTERVAL ≤ (k + 1) * WATCH_VERSIONS_INTERVAL :=
    Nat.mul_le_mul_right _ (by omega)
  simpa using this

/-- C10: a successful tick of either watcher that queued no invalidation
executes the delete pipeline not at all (`if len(invalidate_cache)` fails)
and returns the store exactly as it was, logging no invalidated count. -/
theorem clean_tick_no_write :
    (∀ (store : Store) (resps : List ListingResponse),
      queueUpdates store resps = .ok [] →
      updatesTick store resps = .ok (store, none)) ∧
    (∀ (store : Store) (verchk : List String → VerchkResponse),
      queueVersions store verchk = .ok [] →
      versionsTick store verchk = .ok (store, none)) ∧
    (∀ store : Store, finishTick store [] = (store, none)) := by
  refine ⟨?_, ?_, fun store => rfl⟩
  · intro store resps h
    simp [updatesTick, h, finishTick]
  · intro store verchk h
    simp [versionsTick, h, finishTick]

theorem clean_tick_no_write_witness :
    updatesTick exampleStore [ListingResponse.parsed "ok" []]
      = .ok (exampleStore, none) :=
  clean_tick_no_write.1 exampleStore [ListingResponse.parsed "ok" []] rfl

/-- C8 counterexample: `lifespan()` creates only two watcher tasks —
no catch-up cursor watcher task is started. -/
theorem lifespan_no_catchup :
    lifespanStartedTasks.contains Watcher.catchup = false ∧
    lifespanStartedTasks.length = 2 := ⟨rfl, rfl⟩

/-- C8 amended: entering the lifespan starts exactly two timer-driven watcher
tasks — the update-list watcher and the version-sweep watcher, each with its
own loop body — and shutdown cancels exactly those two; no catch-up cursor
watcher exists in the module. -/
theorem lifespan_two_watchers :
    lifespanStartedTasks = [Watcher.updates, Watcher.versions] ∧
    lifespanCancelledTasks = lifespanStartedTasks ∧
    lifespanStartedTasks.all (fun w => (watcherBody w).isSome) = true ∧
    watcherBody Watcher.catchup = none := ⟨rfl, rfl, rfl, rfl⟩

/-- C2: if any response consumed by a tick makes the tick raise (transport
error, upstream error flag, invalid JSON, or a non-ok status), the whole
tick aborts: the queued deletes are not executed, the store is completely
unchanged, the error is logged, and — by the loop body shape — the loop
sleeps the fixed interval before retrying the whole tick. -/
theorem tick_error_atomicity :
    (∀ (store : Store) (resps : List ListingResponse),
      (∃ r ∈ resps, listingAborts r = true) →
      ∃ e, updatesStep store resps = (store, some e)) ∧
    (∀ (store : Store) (verchk : List String → VerchkResponse),
      (∃ c ∈ versionsBatches store, verchkAborts (verchk (chunkIds c)) = true) →
      ∃ e, versionsStep store verchk = (store, some e)) ∧
    updatesBody = [Phase.work, Phase.idle WATCH_UPDATES_INTERVAL] ∧
    versionsBody = [Phase.idle WATCH_VERSIONS_INTERVAL, Phase.work] := by
  refine ⟨?_, ?_, rfl, rfl⟩
  · intro store resps h
    obtain ⟨e, he⟩ := queueUpdates_error store resps h
    exact ⟨e, by simp [updatesStep, updatesTick, he]⟩
  · intro store verchk h
    obtain ⟨e, he⟩ := runChunks_error store verchk _ h
    exact ⟨e, by simp [versionsStep, versionsTick, queueVersions, he]⟩

theorem tick_error_atomicity_witness :
    ∃ e, updatesStep exampleStore [ListingResponse.netError]
      = (exampleStore, some e) :=
  tick_error_atomicity.1 exampleStore [ListingResponse.netError]
    ⟨ListingResponse.netError, by simp, rfl⟩

/-- C3: a bulk-check response of exactly status `error` with message
`Thread not found` makes the sweep skip that batch (`continue`): nothing is
queued for it, no tick-level error is raised, later batches are still
processed, and the deletes queued by the other batches still execute; any
other non-ok status (or a non-mapping ok payload) aborts the tick. -/
theorem not_found_batch_skipped :
    (∀ (store : Store) (chunk : List String),
      processChunk store chunk notFoundResponse = .ok []) ∧
    (∀ (store : Store) (chunk : List String) (status : String) (msg : VerMsg),
      status ≠ "ok" → ¬(status = "error" ∧ msgIsThreadNotFound msg = true) →
      ∃ e, processChunk store chunk (.parsed status msg) = .error e) ∧
    (∀ (store : Store) (verchk : List String → VerchkResponse)
        (c : List String) (cs : List (List String)),
      verchk (chunkIds c) = notFoundResponse →
      runChunks store verchk (c :: cs)
        = (chunkIds c :: (runChunks store verchk cs).1,
           (runChunks store verchk cs).2)) ∧
    (∀ (store : Store) (verchk : List String → VerchkResponse)
        (names : List String),
      queueVersions store verchk = .ok names →
      versionsTick store verchk = .ok (finishTick store names)) := by
  refine ⟨fun store chunk => rfl, ?_, ?_, ?_⟩
  · intro store chunk status msg hs hnf
    simp only [processChunk]
    by_cases hc : (status == "error" && msgIsThreadNotFound msg) = true
    · exfalso
      rw [Bool.and_eq_true] at hc
      exact hnf ⟨beq_iff_eq.mp hc.1, hc.2⟩
    · rw [if_neg hc, if_pos (by simpa using hs)]
      exact ⟨_, rfl⟩
  · intro store verchk c cs hc
    cases hr : (runChunks store verchk cs).2 with
    | error e => simp [runChunks, hc, notFoundResponse, processChunk,
        msgIsThreadNotFound, hr]
    | ok qs => simp [runChunks, hc, notFoundResponse, processChunk,
        msgIsThreadNotFound, hr]
  · intro store verchk names h
    simp [versionsTick, h]

theorem not_found_batch_skipped_witness :
    runChunks exampleStore (fun _ => notFoundResponse) [["thread:42"]]
      = (chunkIds ["thread:42"]
           :: (runChunks exampleStore (fun _ => notFoundResponse) []).1,
         (runChunks exampleStore (fun _ => notFoundResponse) []).2) :=
  not_found_batch_skipped.2.2.1 exampleStore (fun _ => notFoundResponse)
    ["thread:42"] [] rfl

/-- C7: the version sweep partitions the scanned keys into consecutive
batches of at most 1000 (the last possibly shorter, none empty), the batch
count is `ceil(N / 1000)`, concatenating the batches in order gives back
exactly the scanned key list (no key dropped or duplicated), and on a
successful tick exactly one upstream bulk-check call is issued per batch,
carrying that batch's ids. -/
theorem sweep_batching :
    (∀ (store : Store) (verchk : List String → VerchkResponse)
        (names : List String),
      queueVersions store verchk = .ok names →
      versionsCallsMade store verchk = (versionsBatches store).map chunkIds) ∧
    (∀ store : Store, (versionsBatches store).flatten = scanThreads store) ∧
    (∀ store : Store, (versionsBatches store).length =
      ((scanThreads store).length + WATCH_VERSIONS_CHUNK_SIZE - 1)
        / WATCH_VERSIONS_CHUNK_SIZE) ∧
    (∀ (store : Store) (c : List String), c ∈ versionsBatches store →
      c ≠ [] ∧ c.length ≤ WATCH_VERSIONS_CHUNK_SIZE) := by
  refine ⟨?_, ?_, ?_, ?_⟩
  · intro store verchk names h
    exact runChunks_calls store verchk _ names h
  · intro store
    exact chunks_flatten _ _ (by decide)
  · intro store
    exact chunks_length _ _ (by decide)
  · intro store c hc
    exact chunks_sizes _ _ c hc

theorem sweep_batching_witness :
    versionsCallsMade [] (fun _ => VerchkResponse.netError)
      = (versionsBatches []).map chunkIds :=
  sweep_batching.1 [] (fun _ => VerchkResponse.netError) []
    (by simp [queueVersions, versionsBatches, scanThreads, chunks, runChunks])

/-- C1: a listing item (resp. a bulk-check entry) queues the atomic
`hdel(name, LAST_CACHED, "version")` for its thread key exactly when a cached
version exists, the upstream version is non-empty and not `"Unknown"`, and it
differs from the cached version; a successful tick then deletes both fields
of every queued key and leaves every key not queued (and every field of it)
completely untouched. -/
theorem invalidation_rule :
    (∀ (store : Store) (u : UpdateItem),
      updateDecision store u = some (NAME_FORMAT u.thread_id) ↔
        ∃ cached, hget store (NAME_FORMAT u.thread_id) "version" = some cached ∧
          u.version ≠ "" ∧ u.version ≠ "Unknown" ∧ u.version ≠ cached) ∧
    (∀ (store : Store) (u : UpdateItem) (name : String),
      updateDecision store u = some name → name = NAME_FORMAT u.thread_id) ∧
    (∀ (store : Store) (m : List (String × String)) (name : String),
      versionDecision store m name = some name ↔
        ∃ cached version, hget store name "version" = some cached ∧
          versionsGet m (threadId name) = some version ∧
          version ≠ "" ∧ version ≠ "Unknown" ∧ version ≠ cached) ∧
    (∀ (store : Store) (m : List (String × String)) (name name' : String),
      versionDecision store m name = some name' → name' = name) ∧
    (∀ (store : Store) (resps : List ListingResponse) (q : List String)
        (s' : Store) (log : Option Nat),
      queueUpdates store resps = .ok q →
      updatesTick store resps = .ok (s', log) →
      (∀ name ∈ q, hget s' name "version" = none ∧
        hget s' name LAST_CACHED = none) ∧
      (∀ key f, key ∉ q → hget s' key f = hget store key f)) ∧
    (∀ (store : Store) (verchk : List String → VerchkResponse)
        (q : List String) (s' : Store) (log : Option Nat),
      queueVersions store verchk = .ok q →
      versionsTick store verchk = .ok (s', log) →
      (∀ name ∈ q, hget s' name "version" = none ∧
        hget s' name LAST_CACHED = none) ∧
      (∀ key f, key ∉ q → hget s' key f = hget store key f)) := by
  refine ⟨?_, ?_, ?_, ?_, ?_, ?_⟩
  · intro store u
    cases hv : hget store (NAME_FORMAT u.thread_id) "version" with
    | none => simp [updateDecision, hv]
    | some cached =>
      by_cases h1 : u.version = ""
      · simp [updateDecision, hv, h1]
      · by_cases h2 : u.version = "Unknown"
        · simp [updateDecision, hv, h1, h2]
        · by_cases h3 : u.version = cached
          · simp [updateDecision, hv, h1, h2, h3]
          · simp [updateDecision, hv, h1, h2, h3]
  · intro store u name h
    simp only [updateDecision] at h
    cases hv : hget store (NAME_FORMAT u.thread_id) "version" with
    | none => rw [hv] at h; cases h
    | some cached =>
      simp only [hv] at h
      by_cases h1 : (u.version == "" || u.version == "Unknown") = true
      · rw [if_pos h1] at h; cases h
      · rw [if_neg h1] at h
        by_cases h2 : (u.version != cached) = true
        · rw [if_pos h2] at h; exact (Option.some.inj h).symm
        · rw [if_neg h2] at h; cases h
  · intro store m name
    cases hv : hget store name "version" with
    | none => simp [versionDecision, hv]
    | some cached =>
      cases hg : versionsGet m (threadId name) with
      | none => simp [versionDecision, hv, hg]
      | some version =>
        by_cases h1 : version = ""
        · simp [versionDecision, hv, hg, h1]
        · by_cases h2 : version = "Unknown"
          · simp [versionDecision, hv, hg, h1, h2]
          · by_cases h3 : version = cached
            · simp [versionDecision, hv, hg, h1, h2, h3]
            · simp [versionDecision, hv, hg, h1, h2, h3]
  · intro store m name name' h
    cases hv : hget store name "version" with
    | none => simp [versionDecision, hv] at h
    | some cached =>
      cases hg : versionsGet m (threadId name) with
      | none => simp [versionDecision, hv, hg] at h
      | some version =>
        simp only [versionDecision, hv, hg] at h
        by_cases h1 : (version == "" || version == "Unknown") = true
        · rw [if_pos h1] at h; cases h
        · rw [if_neg h1] at h
          by_cases h2 : (version != cached) = true
          · rw [if_pos h2] at h; exact (Option.some.inj h).symm
          · rw [if_neg h2] at h; cases h
  · intro store resps q s' log hq ht
    simp only [updatesTick, hq] at ht
    exact tick_exec_effect store q s' log (Except.ok.inj ht)
  · intro store verchk q s' log hq ht
    simp only [versionsTick, hq] at ht
    exact tick_exec_effect store q s' log (Except.ok.inj ht)

theorem invalidation_rule_witness :
    (∀ name ∈ ["thread:42"],
      hget [("thread:42", ([] : RHash))] name "version" = none ∧
      hget [("thread:42", ([] : RHash))] name LAST_CACHED = none) ∧
    (∀ key f, key ∉ ["thread:42"] →
      hget [("thread:42", ([] : RHash))] key f = hget exampleStore key f) :=
  invalidation_rule.2.2.2.2.1 exampleStore [exampleListing] ["thread:42"]
    [("thread:42", [])] (some 1) rfl rfl

/-- C4 counterexample: with thread 42 cached at version `1.0` and two
categories' first pages both reporting it at `2.0`, a single update-list tick
queues `thread:42` twice — the claimed "never more than once" fails. -/
theorem duplicate_queue_counterexample :
    queueUpdates exampleStore
        [exampleListing, exampleListing, ListingResponse.parsed "ok" []]
      = .ok ["thread:42", "thread:42"] ∧
    (["thread:42", "thread:42"] : List String).count "thread:42" = 2 :=
  ⟨rfl, rfl⟩

/-- C4 amended: a single update-list tick queues a key once per qualifying
item occurrence across the categories' pages — in particular exactly once
when exactly one item qualifies for it, but once per occurrence (not once in
total) when the same thread id appears on several pages or several times on
one page. -/
theorem queue_count_per_occurrence (store : Store)
    (resps : List ListingResponse) (q : List String) (name : String)
    (hq : queueUpdates store resps = .ok q) :
    q.count name = (resps.map (respCount store name)).sum := by
  induction resps generalizing q with
  | nil =>
    cases Except.ok.inj hq
    rfl
  | cons r rest ih =>
    simp only [queueUpdates] at hq
    cases hp : processListing store r with
    | error e => rw [hp] at hq; cases hq
    | ok q0 =>
      rw [hp] at hq
      cases hr : queueUpdates store rest with
      | error e => rw [hr] at hq; cases hq
      | ok qs =>
        rw [hr] at hq
        cases Except.ok.inj hq
        rw [List.count_append, List.map_cons, List.sum_cons, ih qs hr]
        congr 1
        cases r with
        | netError => cases hp
        | indexError flag => cases hp
        | invalidJSON => cases hp
        | parsed status data =>
          simp only [processListing] at hp
          by_cases hs : (status != "ok") = true
          · rw [if_pos hs] at hp; cases hp
          · rw [if_neg hs] at hp
            cases Except.ok.inj hp
            exact count_filterMap_updateDecision store data name

theorem queue_count_per_occurrence_witness :
    (["thread:42", "thread:42"] : List String).count "thread:42"
      = (([exampleListing, exampleListing, ListingResponse.parsed "ok" []]).map
          (respCount exampleStore "thread:42")).sum :=
  queue_count_per_occurrence exampleStore
    [exampleListing, exampleListing, ListingResponse.parsed "ok" []]
    ["thread:42", "thread:42"] "thread:42" rfl

/-- C5: the logged invalidated count of a tick is the number of executed
`hdel` commands whose reply was not `"0"`, i.e. exactly the number of queued
deletes that removed at least one existing field (the reply of each `hdel`
being the number of requested fields that existed); deleting the two fields
of the same key a second time removes nothing, replies `0`, and leaves the
store unchanged. -/
theorem affected_count :
    (∀ (store : Store) (resps : List ListingResponse) (s' : Store) (cnt : Nat),
      updatesTick store resps = .ok (s', some cnt) →
      ∃ q, queueUpdates store resps = .ok q ∧
        s' = (execInvalidate store q).1 ∧
        cnt = ((execInvalidate store q).2).countP (fun c => c != 0)) ∧
    (∀ (store : Store) (verchk : List String → VerchkResponse)
        (s' : Store) (cnt : Nat),
      versionsTick store verchk = .ok (s', some cnt) →
      ∃ q, queueVersions store verchk = .ok q ∧
        s' = (execInvalidate store q).1 ∧
        cnt = ((execInvalidate store q).2).countP (fun c => c != 0)) ∧
    (∀ (s : Store) (key : String) (fields : List String),
      (hdel s key fields).2 =
        (fields.filter (fun f => (hget s key f).isSome)).length) ∧
    (∀ (s : Store) (name : String),
      hdel (hdel s name [LAST_CACHED, "version"]).1 name [LAST_CACHED, "version"]
        = ((hdel s name [LAST_CACHED, "version"]).1, 0)) := by
  refine ⟨?_, ?_, hdel_count, ?_⟩
  · intro store resps s' cnt ht
    cases hq : queueUpdates store resps with
    | error e => rw [updatesTick, hq] at ht; cases ht
    | ok q =>
      simp only [updatesTick, hq] at ht
      obtain ⟨h1, h2⟩ := finishTick_some store q s' cnt (Except.ok.inj ht)
      exact ⟨q, rfl, h1, h2⟩
  · intro store verchk s' cnt ht
    cases hq : queueVersions store verchk with
    | error e => rw [versionsTick, hq] at ht; cases ht
    | ok q =>
      simp only [versionsTick, hq] at ht
      obtain ⟨h1, h2⟩ := finishTick_some store q s' cnt (Except.ok.inj ht)
      exact ⟨q, rfl, h1, h2⟩
  · intro s name
    exact hdel_absent _ name [LAST_CACHED, "version"]
      (fun f hf => hget_hdel_mem s name [LAST_CACHED, "version"] f hf)

theorem affected_count_witness :
    ∃ q, queueUpdates exampleStore [exampleListing] = .ok q ∧
      ([("thread:42", ([] : RHash))] : Store) = (execInvalidate exampleStore q).1 ∧
      1 = ((execInvalidate exampleStore q).2).countP (fun c => c != 0) :=
  affected_count.1 exampleStore [exampleListing] [("thread:42", [])] 1 rfl

/-- C6: the only cache mutation either watcher step performs is a batched
sequence of atomic two-field `hdel(name, LAST_CACHED, "version")` commands,
so the both-fields-or-neither invariant is preserved by every step of both
watchers (on failure the store is untouched). -/
theorem paired_fields_invariant :
    (∀ (store : Store) (resps : List ListingResponse),
      ∃ names, (updatesStep store resps).1 = (execInvalidate store names).1) ∧
    (∀ (store : Store) (verchk : List String → VerchkResponse),
      ∃ names, (versionsStep store verchk).1 = (execInvalidate store names).1) ∧
    (∀ (store : Store) (names : List String),
      pairedFields store → pairedFields (execInvalidate store names).1) ∧
    (∀ (store : Store) (resps : List ListingResponse),
      pairedFields store → pairedFields (updatesStep store resps).1) ∧
    (∀ (store : Store) (verchk : List String → VerchkResponse),
      pairedFields store → pairedFields (versionsStep store verchk).1) := by
  refine ⟨updatesStep_is_exec, versionsStep_is_exec, pairedFields_exec, ?_, ?_⟩
  · intro store resps h
    obtain ⟨names, hn⟩ := updatesStep_is_exec store resps
    rw [hn]
    exact pairedFields_exec store names h
  · intro store verchk h
    obtain ⟨names, hn⟩ := versionsStep_is_exec store verchk
    rw [hn]
    exact pairedFields_exec store names h

theorem paired_fields_invariant_witness :
    pairedFields (updatesStep exampleStore [exampleListing]).1 :=
  paired_fields_invariant.2.2.2.1 exampleStore [exampleListing] (by
    intro key
    by_cases hk : "thread:42" = key
    · subst hk
      decide
    · have hne : (("thread:42" : String) == key) = false := by
        simp [hk]
      simp [exampleStore, hget, hne])

end Indexer
